import Mathlib

/-!
Verification of the originality-checking bot (`bot.py`).

The development shallowly embeds the bot's pure computations:

* `pyStrip` models Python's `str.strip()` on the whitespace characters the
  handlers can meet;
* the `SequenceMatcher` section models CPython's `difflib.SequenceMatcher`
  (as invoked with `isjunk = None`, so the junk set `bjunk` is empty, and
  default `autojunk = True`) and its `ratio()`;
* `calculate_max_similarity_locally`, `save_submission`,
  `extract_text_from_docx`, `poll_copyleaks_result`,
  `check_internet_plagiarism`, `check_text` and `handle_document` mirror the
  functions of the same names in `bot.py`.  Network effects are passed in as
  explicit values (`RemoteEnv`, response streams), the SQLite table is a list
  of rows in insertion order (which is its fetch order), replies are events
  carrying the quantities the Russian message texts format, and floats are
  modelled by rationals.
-/

namespace Bot

/-- ASCII whitespace stripped by Python's `str.strip()`
    (space, tab, newline, carriage return, vertical tab, form feed). -/
def isPySpace (c : Char) : Bool :=
  c = ' ' || c = '\t' || c = '\n' || c = '\r' || c = '\x0b' || c = '\x0c'

/-- Python `s.strip()`: drop leading and trailing whitespace. -/
def pyStrip (s : String) : String :=
  ⟨((s.data.dropWhile isPySpace).reverse.dropWhile isPySpace).reverse⟩

/-- Python `s.lower()` (ASCII case folding, which covers the file names the
    `.docx` extension check inspects). -/
def asciiLower (s : String) : String :=
  ⟨s.data.map Char.toLower⟩

/-- Python `s.endswith(suffix)`. -/
def pyEndsWith (s suffix : String) : Bool :=
  suffix.data.isSuffixOf s.data

/-- One row of the `submissions` table
    (`id, user_id, username, text, ts, internet_score`).
    `save_submission` always stores a string (`user.username or ""`) in
    `username`; `ts` abstracts the ISO timestamp; `internet_score` is the
    Copyleaks percentage as a rational. -/
structure Submission where
  id : Nat
  user_id : Nat
  username : String
  text : String
  ts : Nat
  internet_score : ℚ
  deriving DecidableEq

/-- `rec_username or str(rec_user_id)`: the empty string is falsy, so an
    empty stored username falls back to the decimal user id. -/
def displayHandle (rec : Submission) : String :=
  if rec.username = "" then toString rec.user_id else rec.username

/-!  ## difflib.SequenceMatcher (CPython), specialised to `isjunk = None`  -/

/-- `__chain_b` autojunk: with `autojunk=True`, when `len(b) >= 200` an
    element occurring more than `len(b) // 100 + 1` times is popular and is
    deleted from `b2j`. -/
def isPopular (b : List Char) (c : Char) : Bool :=
  decide (200 ≤ b.length) && decide (b.length / 100 + 1 < b.count c)

/-- `b2j[c]`: the ascending list of positions of `c` in `b`, empty when `c`
    was deleted as popular. -/
def b2j (b : List Char) (c : Char) : List Nat :=
  if isPopular b c then [] else (List.range b.length).filter (fun j => b.getD j default == c)

/-- The running state of `find_longest_match`: the best block found so far
    and `j2len`, the length of the candidate chain ending at each `b`-column
    of the previous row (a total function, `0` meaning absent). -/
structure FlmState where
  besti : Nat
  bestj : Nat
  bestsize : Nat
  j2len : Nat → Nat

/-- `k = j2lenget(j-1, 0) + 1`: the chain value computed for column `j` of
    the current row, read from the previous row's `j2len`. -/
def kval (st : FlmState) (j : Nat) : Nat :=
  (if j = 0 then 0 else st.j2len (j - 1)) + 1

/-- One step of the inner `for j in b2j.get(a[i], nothing)` loop: record the
    chain value in `newj2len` and take the block ending at `(i, j)` as best
    if it is strictly longer than the best so far. -/
def innerStep (i : Nat) (st : FlmState) (acc : (Nat → Nat) × Nat × Nat × Nat) (j : Nat) :
    (Nat → Nat) × Nat × Nat × Nat :=
  let k := kval st j
  let nj : Nat → Nat := fun x => if x = j then k else acc.1 x
  if acc.2.2.2 < k then (nj, i + 1 - k, j + 1 - k, k) else (nj, acc.2)

/-- The inner loop of one iteration of the outer `for i in range(alo, ahi)`
    loop.  The `continue`/`break` guards on the ascending `b2j` list amount
    to keeping the columns with `blo <= j < bhi`; `newj2len` starts empty. -/
def flmRowFold (a b : List Char) (blo bhi : Nat) (st : FlmState) (i : Nat) :
    (Nat → Nat) × Nat × Nat × Nat :=
  (((b2j b (a.getD i default)).filter (fun j => decide (blo ≤ j) && decide (j < bhi))).foldl
    (innerStep i st) (fun _ => 0, st.besti, st.bestj, st.bestsize))

/-- One iteration of the outer loop: new best block and the new `j2len`. -/
def flmRow (a b : List Char) (blo bhi : Nat) (st : FlmState) (i : Nat) : FlmState :=
  ⟨(flmRowFold a b blo bhi st i).2.1, (flmRowFold a b blo bhi st i).2.2.1,
   (flmRowFold a b blo bhi st i).2.2.2, (flmRowFold a b blo bhi st i).1⟩

/-- The first `while` extension loop: grow the block backwards while the
    neighbouring elements match (`bjunk` is empty since `isjunk` is `None`,
    so the junk conditions of the four loops collapse to these two loops).
    Structural recursion on `besti`, the loop's decreasing counter: when
    `besti = 0` the guard `besti > alo` already fails, and otherwise the
    loop compares `a[besti-1]` with `b[bestj-1]` and decrements
    (`besti - 1` is written `besti'` for `besti = besti' + 1`). -/
def extendBack (a b : List Char) (alo blo : Nat) :
    Nat → Nat → Nat → Nat × Nat × Nat
  | 0, bestj, bestsize => (0, bestj, bestsize)
  | besti+1, bestj, bestsize =>
    if alo < besti + 1 ∧ blo < bestj ∧
        a.getD besti default == b.getD (bestj - 1) default then
      extendBack a b alo blo besti (bestj - 1) (bestsize + 1)
    else
      (besti + 1, bestj, bestsize)

/-- The second `while` extension loop, structurally recursive on a counter:
    each iteration requires `besti + bestsize < ahi`, so starting the
    counter at `ahi - (besti + bestsize)` reproduces the loop exactly (at
    counter 0 the guard is false anyway). -/
def extendFwdAux (a b : List Char) (ahi bhi besti bestj : Nat) : Nat → Nat → Nat
  | 0, bestsize => bestsize
  | fuel+1, bestsize =>
    if besti + bestsize < ahi ∧ bestj + bestsize < bhi ∧
        a.getD (besti + bestsize) default == b.getD (bestj + bestsize) default then
      extendFwdAux a b ahi bhi besti bestj fuel (bestsize + 1)
    else
      bestsize

/-- Grow the block forwards while the elements just past it match. -/
def extendFwd (a b : List Char) (ahi bhi besti bestj bestsize : Nat) : Nat :=
  extendFwdAux a b ahi bhi besti bestj (ahi - (besti + bestsize)) bestsize

/-- `find_longest_match(alo, ahi, blo, bhi)`. -/
def findLongestMatch (a b : List Char) (alo ahi blo bhi : Nat) : Nat × Nat × Nat :=
  let st := (List.range' alo (ahi - alo)).foldl (flmRow a b blo bhi) ⟨alo, blo, 0, fun _ => 0⟩
  let back := extendBack a b alo blo st.besti st.bestj st.bestsize
  (back.1, back.2.1, extendFwd a b ahi bhi back.1 back.2.1 back.2.2)

/-- `get_matching_blocks`'s queue recursion: the segment's longest match is
    a block, and the sub-segments strictly before and strictly after it are
    processed in turn.  The fuel bounds the recursion depth; every level
    shrinks the segment, so the generous fuel chosen by `getMatchingBlocks`
    is never exhausted. -/
def matchingBlocksAux (a b : List Char) : Nat → Nat → Nat → Nat → Nat → List (Nat × Nat × Nat)
  | 0, _, _, _, _ => []
  | fuel+1, alo, ahi, blo, bhi =>
    let m := findLongestMatch a b alo ahi blo bhi
    if m.2.2 = 0 then []
    else
      (if alo < m.1 ∧ blo < m.2.1 then matchingBlocksAux a b fuel alo m.1 blo m.2.1 else [])
        ++ m ::
          (if m.1 + m.2.2 < ahi ∧ m.2.1 + m.2.2 < bhi then
            matchingBlocksAux a b fuel (m.1 + m.2.2) ahi (m.2.1 + m.2.2) bhi
          else [])

/-- `get_matching_blocks()` over the whole sequences.  (The sort, the merge
    of adjacent blocks and the terminating `(la, lb, 0)` sentinel neither
    add nor remove matched elements, so they are dropped: `ratio` only reads
    the total size of the blocks.) -/
def getMatchingBlocks (a b : List Char) : List (Nat × Nat × Nat) :=
  matchingBlocksAux a b (a.length + b.length + 1) 0 a.length 0 b.length

/-- `sum(triple[-1] for triple in self.get_matching_blocks())`. -/
def matchesTotal (a b : List Char) : Nat :=
  ((getMatchingBlocks a b).map (fun t => t.2.2)).sum

/-- `SequenceMatcher(None, sa, sb).ratio()`, i.e. `_calculate_ratio`:
    `2.0 * matches / (len(a) + len(b))`, and `1.0` for two empty sequences. -/
def smRatio (sa sb : String) : ℚ :=
  if sa.data.length + sb.data.length = 0 then 1
  else (2 * matchesTotal sa.data sb.data : ℚ) / ((sa.data.length + sb.data.length : Nat) : ℚ)

/-!  ## Local similarity scoring  -/

/-- `LOCAL_SIMILARITY_THRESHOLD = 0.7`. -/
def LOCAL_SIMILARITY_THRESHOLD : ℚ := 7/10

/-- `INTERNET_SIMILARITY_THRESHOLD = 20.0`. -/
def INTERNET_SIMILARITY_THRESHOLD : ℚ := 20

/-- The body of the `for` loop of `calculate_max_similarity_locally`:
    strictly better ratios replace the best record seen so far. -/
def localStep (new_text : String) (best : ℚ × Option Nat × Option String) (rec : Submission) :
    ℚ × Option Nat × Option String :=
  let r := smRatio new_text rec.text
  if best.1 < r then (r, some rec.id, some (displayHandle rec)) else best

/-- `calculate_max_similarity_locally(new_text)` given the fetched rows:
    returns `(best_ratio, best_id, best_user)` starting from
    `(0.0, None, None)`. -/
def calculate_max_similarity_locally (new_text : String) (submissions : List Submission) :
    ℚ × Option Nat × Option String :=
  submissions.foldl (localStep new_text) (0, none, none)

/-- `save_submission`: the store appends the row; the append-only
    AUTOINCREMENT table assigns ids 1, 2, 3, … in insertion order, and
    `now` stands for `datetime.utcnow()`. -/
def save_submission (db : List Submission) (user_id : Nat) (username : String)
    (text : String) (internet_score : ℚ) (now : Nat) : List Submission :=
  db ++ [{ id := db.length + 1, user_id := user_id, username := username,
           text := text, ts := now, internet_score := internet_score }]

/-!  ## Document text extraction  -/

/-- `extract_text_from_docx` after `word/document.xml` is parsed: the
    `<w:t>` nodes' texts in document order, `none` standing for a node whose
    `.text` is `None`.  The loop keeps the truthy (non-`None`, non-empty)
    texts and joins them with `"\n"`; images and styles contribute no
    `<w:t>` node. -/
def extract_text_from_docx (nodeTexts : List (Option String)) : String :=
  String.intercalate "\n" ((nodeTexts.filterMap id).filter (fun t => t ≠ ""))

/-!  ## Copyleaks remote scan  -/

/-- The error exits of the Copyleaks pipeline (each a `RuntimeError` in the
    code, distinguished here by the raising site). -/
inductive CLError where
  | tokenError
  | submitError
  | noScanId
  | pollHttpError
  | scanFailed
  | reportError
  deriving DecidableEq

/-- One response of `GET /v3/scans/{id}/status`: whether the HTTP status was
    200, and `data.get("status")` (`none` when the key is absent). -/
structure PollResp where
  httpOk : Bool
  status : Option String
  deriving DecidableEq

/-- The result dictionary of `GET /v3/scans/{id}/results`, reduced to the
    field the code reads: `report.get("summary", {}).get("percentage")`,
    `none` when the summary has no percentage (or there is no summary). -/
structure CopyleaksReport where
  summary_percentage : Option ℚ
  deriving DecidableEq

/-- `summary.get("percentage", 0.0)`: a missing percentage defaults to 0. -/
def reportOverallScore (report : CopyleaksReport) : ℚ :=
  report.summary_percentage.getD 0

/-- The vendor's behaviour for one scan, passed in explicitly: the outcomes
    of the login, submit and results calls and the stream of status
    responses that polling will see. -/
structure RemoteEnv where
  login : Except CLError String
  submit : Except CLError (Option String)
  statusResponses : Nat → PollResp
  report : Except CLError CopyleaksReport

/-- The `while True` polling loop of `poll_copyleaks_result`, reading the
    `n`-th status response each iteration; `fuel` bounds the number of
    iterations observed, `none` meaning the loop is still running. -/
def pollAux (responses : Nat → PollResp) : Nat → Nat → Option (Except CLError PollResp)
  | _, 0 => none
  | n, fuel+1 =>
    let resp := responses n
    if resp.httpOk = false then some (Except.error CLError.pollHttpError)
    else if resp.status = some "completed" then some (Except.ok resp)
    else if resp.status = some "failed" then some (Except.error CLError.scanFailed)
    else pollAux responses (n + 1) fuel

/-- `poll_copyleaks_result`: poll from the first response on. -/
def poll_copyleaks_result (responses : Nat → PollResp) (fuel : Nat) :
    Option (Except CLError PollResp) :=
  pollAux responses 0 fuel

/-- A status response on which the loop stops: a non-200 poll (raises), a
    `"completed"` status (returns) or a `"failed"` status (raises). -/
def isTerminalResp (resp : PollResp) : Prop :=
  resp.httpOk = false ∨ resp.status = some "completed" ∨ resp.status = some "failed"

instance (resp : PollResp) : Decidable (isTerminalResp resp) := by
  unfold isTerminalResp; infer_instance

/-- `check_internet_plagiarism(text)`: login, submit (`if not scan_id`
    re-raises on a missing or empty scan id), poll, then read the report's
    summary percentage.  `none` means the polling loop has not finished
    within `fuel` iterations. -/
def check_internet_plagiarism (env : RemoteEnv) (fuel : Nat) : Option (Except CLError ℚ) :=
  match env.login with
  | Except.error e => some (Except.error e)
  | Except.ok _ =>
    match env.submit with
    | Except.error e => some (Except.error e)
    | Except.ok scanId =>
      if scanId.getD "" = "" then some (Except.error CLError.noScanId)
      else
        match poll_copyleaks_result env.statusResponses fuel with
        | none => none
        | some (Except.error e) => some (Except.error e)
        | some (Except.ok _) =>
          match env.report with
          | Except.error e => some (Except.error e)
          | Except.ok report => some (Except.ok (reportOverallScore report))

/-!  ## Message handlers  -/

/-- The replies the handlers can send, carrying the quantities the message
    texts format (`round(local_ratio*100, 1)` and `f"{score:.1f}"` are
    presentation of the carried rational). -/
inductive Reply where
  | rejectEmptyText
  | localWarn (local_ratio : ℚ) (local_user : String)
  | noLocalMatch
  | copyleaksError
  | verdictNotOriginal (internet_score : ℚ)
  | verdictOriginal (internet_score : ℚ)
  | onlyDocxSupported
  | docxReadError
  | emptyDocxFile
  deriving DecidableEq

/-- Python truthiness of `local_id` (`None` and `0` are falsy). -/
def optTruthy : Option Nat → Bool
  | none => false
  | some n => decide (n ≠ 0)

/-- The first reply of both handlers:
    `if local_id and local_ratio >= LOCAL_SIMILARITY_THRESHOLD`. -/
def localReplyFor (lr : ℚ × Option Nat × Option String) : Reply :=
  if optTruthy lr.2.1 && decide (LOCAL_SIMILARITY_THRESHOLD ≤ lr.1) then
    Reply.localWarn lr.1 (lr.2.2.getD "")
  else Reply.noLocalMatch

/-- The verdict reply: `internet_score >= INTERNET_SIMILARITY_THRESHOLD`
    is "possibly not original". -/
def verdictReply (internet_score : ℚ) : Reply :=
  if INTERNET_SIMILARITY_THRESHOLD ≤ internet_score then Reply.verdictNotOriginal internet_score
  else Reply.verdictOriginal internet_score

/-- `check_text`: strip, reject empty, local check, Copyleaks check (its
    outcome `remote` passed in; an exception aborts before the save),
    verdict, then `save_submission` of the stripped text. -/
def check_text (db : List Submission) (user_id : Nat) (username : Option String)
    (message_text : String) (remote : Except CLError ℚ) (now : Nat) :
    List Submission × List Reply :=
  let raw_text := pyStrip message_text
  if raw_text = "" then (db, [Reply.rejectEmptyText])
  else
    let first := localReplyFor (calculate_max_similarity_locally raw_text db)
    match remote with
    | Except.error _ => (db, [first, Reply.copyleaksError])
    | Except.ok internet_score =>
      (save_submission db user_id (username.getD "") raw_text internet_score now,
       [first, verdictReply internet_score])

/-- `handle_document`: extension check, download and extraction (its outcome
    `extracted` passed in; the transient file's removal is not modelled),
    rejection of whitespace-only extracted text, then the same local check,
    Copyleaks check, verdict and save of the extracted (unstripped) text. -/
def handle_document (db : List Submission) (user_id : Nat) (username : Option String)
    (file_name : String) (extracted : Except String String) (remote : Except CLError ℚ)
    (now : Nat) : List Submission × List Reply :=
  if ¬ pyEndsWith (asciiLower file_name) ".docx" then (db, [Reply.onlyDocxSupported])
  else
    match extracted with
    | Except.error _ => (db, [Reply.docxReadError])
    | Except.ok raw_text =>
      if pyStrip raw_text = "" then (db, [Reply.emptyDocxFile])
      else
        let first := localReplyFor (calculate_max_similarity_locally raw_text db)
        match remote with
        | Except.error _ => (db, [first, Reply.copyleaksError])
        | Except.ok internet_score =>
          (save_submission db user_id (username.getD "") raw_text internet_score now,
           [first, verdictReply internet_score])

/-!  ## Lemmas about the inner loop of `find_longest_match`  -/

theorem innerStep_fst (i : Nat) (st : FlmState) (acc : (Nat → Nat) × Nat × Nat × Nat) (j : Nat) :
    (innerStep i st acc j).1 = fun x => if x = j then kval st j else acc.1 x := by
  unfold innerStep
  dsimp only
  split <;> rfl

theorem innerStep_snd (i : Nat) (st : FlmState) (acc : (Nat → Nat) × Nat × Nat × Nat) (j : Nat) :
    (innerStep i st acc j).2 =
      if acc.2.2.2 < kval st j then (i + 1 - kval st j, j + 1 - kval st j, kval st j)
      else acc.2 := by
  unfold innerStep
  dsimp only
  split <;> rfl

/-- The `j2len` produced by the inner loop: each visited column holds its
    chain value (computed from the previous row), every other column keeps
    the accumulator's value. -/
theorem innerFold_j2len (i : Nat) (st : FlmState) :
    ∀ (ls : List Nat) (acc : (Nat → Nat) × Nat × Nat × Nat) (x : Nat),
      (ls.foldl (innerStep i st) acc).1 x = if x ∈ ls then kval st x else acc.1 x := by
  intro ls
  induction ls with
  | nil => intro acc x; simp
  | cons j ls ih =>
    intro acc x
    rw [List.foldl_cons, ih]
    by_cases hx : x ∈ ls
    · simp [hx]
    · rw [if_neg hx, innerStep_fst]
      by_cases hxj : x = j
      · subst hxj; simp
      · simp [hxj, hx]

/-- If no visited column's chain value beats the accumulated best size, the
    best triple survives the inner loop unchanged. -/
theorem innerFold_no_update (i : Nat) (st : FlmState) :
    ∀ (ls : List Nat) (acc : (Nat → Nat) × Nat × Nat × Nat),
      (∀ j ∈ ls, kval st j ≤ acc.2.2.2) →
      (ls.foldl (innerStep i st) acc).2 = acc.2 := by
  intro ls
  induction ls with
  | nil => intro acc _; rfl
  | cons j ls ih =>
    intro acc h
    rw [List.foldl_cons]
    have hj : ¬ acc.2.2.2 < kval st j := not_lt.mpr (h j (List.mem_cons_self j ls))
    have hstep : (innerStep i st acc j).2 = acc.2 := by rw [innerStep_snd, if_neg hj]
    rw [ih _ (fun x hx => by rw [hstep]; exact h x (List.mem_cons_of_mem _ hx)), hstep]

/-- Bounds preserved by the inner loop on row `i = alo + q`: the best block
    stays inside `[alo, i+1) × [blo, bhi)`. -/
theorem innerFold_bounds (alo blo bhi i q : Nat) (st : FlmState)
    (hst : ∀ j, st.j2len j ≤ q) (hst2 : ∀ j, st.j2len j ≤ j + 1 - blo) (hi : i = alo + q) :
    ∀ (ls : List Nat) (acc : (Nat → Nat) × Nat × Nat × Nat),
      (∀ j ∈ ls, blo ≤ j ∧ j < bhi) →
      alo ≤ acc.2.1 → acc.2.1 + acc.2.2.2 ≤ i + 1 →
      blo ≤ acc.2.2.1 → acc.2.2.1 + acc.2.2.2 ≤ bhi →
      alo ≤ (ls.foldl (innerStep i st) acc).2.1 ∧
        (ls.foldl (innerStep i st) acc).2.1 + (ls.foldl (innerStep i st) acc).2.2.2 ≤ i + 1 ∧
        blo ≤ (ls.foldl (innerStep i st) acc).2.2.1 ∧
        (ls.foldl (innerStep i st) acc).2.2.1 + (ls.foldl (innerStep i st) acc).2.2.2 ≤ bhi := by
  intro ls
  induction ls with
  | nil => intro acc _ h1 h2 h3 h4; exact ⟨h1, h2, h3, h4⟩
  | cons j ls ih =>
    intro acc hmem h1 h2 h3 h4
    have hjb : blo ≤ j ∧ j < bhi := hmem j (List.mem_cons_self j ls)
    have hk1 : kval st j ≤ q + 1 := by
      unfold kval; split
      · omega
      · have := hst (j - 1); omega
    have hk2 : kval st j + blo ≤ j + 1 := by
      unfold kval; split
      · omega
      · have := hst2 (j - 1); omega
    rw [List.foldl_cons]
    have hstep := innerStep_snd i st acc j
    by_cases hc : acc.2.2.2 < kval st j
    · rw [if_pos hc] at hstep
      refine ih _ (fun x hx => hmem x (List.mem_cons_of_mem _ hx)) ?_ ?_ ?_ ?_ <;>
        rw [hstep] <;> dsimp only <;> omega
    · rw [if_neg hc] at hstep
      refine ih _ (fun x hx => hmem x (List.mem_cons_of_mem _ hx)) ?_ ?_ ?_ ?_ <;>
        rw [hstep] <;> omega

/-!  ## Validity bounds for `find_longest_match`  -/

/-- Invariant of the outer loop of `find_longest_match` after `q` rows. -/
def VInv (alo blo bhi q : Nat) (st : FlmState) : Prop :=
  alo ≤ st.besti ∧ st.besti + st.bestsize ≤ alo + q ∧ blo ≤ st.bestj ∧
    st.bestj + st.bestsize ≤ bhi ∧ (∀ j, st.j2len j ≤ q) ∧ (∀ j, st.j2len j ≤ j + 1 - blo)

theorem flmRow_mem (a b : List Char) (blo bhi : Nat) (i : Nat) :
    ∀ j ∈ (b2j b (a.getD i default)).filter (fun j => decide (blo ≤ j) && decide (j < bhi)),
      blo ≤ j ∧ j < bhi := by
  intro j hj
  have := (List.mem_filter.mp hj).2
  simp only [Bool.and_eq_true, decide_eq_true_eq] at this
  exact this

theorem flmRow_besti (a b : List Char) (blo bhi : Nat) (st : FlmState) (i : Nat) :
    (flmRow a b blo bhi st i).besti = (flmRowFold a b blo bhi st i).2.1 := rfl

theorem flmRow_bestj (a b : List Char) (blo bhi : Nat) (st : FlmState) (i : Nat) :
    (flmRow a b blo bhi st i).bestj = (flmRowFold a b blo bhi st i).2.2.1 := rfl

theorem flmRow_bestsize (a b : List Char) (blo bhi : Nat) (st : FlmState) (i : Nat) :
    (flmRow a b blo bhi st i).bestsize = (flmRowFold a b blo bhi st i).2.2.2 := rfl

theorem flmRow_j2len (a b : List Char) (blo bhi : Nat) (st : FlmState) (i : Nat) :
    (flmRow a b blo bhi st i).j2len = (flmRowFold a b blo bhi st i).1 := rfl

theorem flmRow_VInv (a b : List Char) (alo blo bhi q : Nat) (st : FlmState)
    (_hbb : blo ≤ bhi) (h : VInv alo blo bhi q st) :
    VInv alo blo bhi (q + 1) (flmRow a b blo bhi st (alo + q)) := by
  obtain ⟨h1, h2, h3, h4, h5, h6⟩ := h
  have hmem := flmRow_mem a b blo bhi (alo + q)
  have hbounds := innerFold_bounds alo blo bhi (alo + q) q st h5 h6 rfl
    ((b2j b (a.getD (alo + q) default)).filter (fun j => decide (blo ≤ j) && decide (j < bhi)))
    (fun _ => 0, st.besti, st.bestj, st.bestsize) hmem h1 (le_trans h2 (Nat.le_succ _)) h3 h4
  have hj2 := innerFold_j2len (alo + q) st
    ((b2j b (a.getD (alo + q) default)).filter (fun j => decide (blo ≤ j) && decide (j < bhi)))
    (fun _ => 0, st.besti, st.bestj, st.bestsize)
  unfold VInv
  rw [flmRow_besti, flmRow_bestj, flmRow_bestsize, flmRow_j2len]
  unfold flmRowFold
  refine ⟨hbounds.1, by have := hbounds.2.1; omega, hbounds.2.2.1, hbounds.2.2.2, ?_, ?_⟩
  · intro j
    rw [hj2 j]
    split
    · have hjb := hmem j (by assumption)
      unfold kval; split
      · omega
      · have := h5 (j - 1); omega
    · dsimp only; omega
  · intro j
    rw [hj2 j]
    split
    · have hjb := hmem j (by assumption)
      unfold kval; split
      · omega
      · have := h6 (j - 1); omega
    · dsimp only; omega

theorem flmFold_VInv (a b : List Char) (alo blo bhi : Nat) (hbb : blo ≤ bhi) :
    ∀ q, VInv alo blo bhi q
      ((List.range' alo q).foldl (flmRow a b blo bhi) ⟨alo, blo, 0, fun _ => 0⟩) := by
  intro q
  induction q with
  | zero =>
    show VInv alo blo bhi 0 (⟨alo, blo, 0, fun _ => 0⟩ : FlmState)
    exact ⟨le_refl _, le_refl _, le_refl _, hbb, fun _ => Nat.le_refl 0, fun _ => Nat.zero_le _⟩
  | succ q ih =>
    rw [List.range'_concat, Nat.one_mul, List.foldl_append, List.foldl_cons, List.foldl_nil]
    exact flmRow_VInv a b alo blo bhi q _ hbb ih

/-- `extendBack` keeps the two block ends fixed while moving the start
    back inside `[alo, _) × [blo, _)`. -/
theorem extendBack_bounds (a b : List Char) (alo blo : Nat) :
    ∀ bi bj bs, alo ≤ bi → blo ≤ bj →
      alo ≤ (extendBack a b alo blo bi bj bs).1 ∧
        (extendBack a b alo blo bi bj bs).1 + (extendBack a b alo blo bi bj bs).2.2 = bi + bs ∧
        blo ≤ (extendBack a b alo blo bi bj bs).2.1 ∧
        (extendBack a b alo blo bi bj bs).2.1 + (extendBack a b alo blo bi bj bs).2.2 = bj + bs := by
  intro bi
  induction bi with
  | zero =>
    intro bj bs h1 h2
    rw [extendBack]
    exact ⟨h1, rfl, h2, rfl⟩
  | succ bi ih =>
    intro bj bs h1 h2
    rw [extendBack]
    split
    · rename_i h
      have := ih (bj - 1) (bs + 1) (by omega) (by omega)
      refine ⟨this.1, by omega, this.2.2.1, by omega⟩
    · exact ⟨h1, rfl, h2, rfl⟩

/-- `extendFwd` only grows the size while keeping the block inside the
    segment. -/
theorem extendFwdAux_bounds (a b : List Char) (ahi bhi bi bj : Nat) :
    ∀ fuel s, bi + s ≤ ahi → bj + s ≤ bhi →
      s ≤ extendFwdAux a b ahi bhi bi bj fuel s ∧
        bi + extendFwdAux a b ahi bhi bi bj fuel s ≤ ahi ∧
        bj + extendFwdAux a b ahi bhi bi bj fuel s ≤ bhi := by
  intro fuel
  induction fuel with
  | zero =>
    intro s h1 h2
    rw [extendFwdAux]
    exact ⟨le_refl _, h1, h2⟩
  | succ fuel ih =>
    intro s h1 h2
    rw [extendFwdAux]
    split
    · rename_i hg
      have := ih (s + 1) (by omega) (by omega)
      exact ⟨by omega, this.2.1, this.2.2⟩
    · exact ⟨le_refl _, h1, h2⟩

theorem extendFwd_bounds (a b : List Char) (ahi bhi bi bj : Nat) :
    ∀ s, bi + s ≤ ahi → bj + s ≤ bhi →
      s ≤ extendFwd a b ahi bhi bi bj s ∧ bi + extendFwd a b ahi bhi bi bj s ≤ ahi ∧
        bj + extendFwd a b ahi bhi bi bj s ≤ bhi := by
  intro s h1 h2
  exact extendFwdAux_bounds a b ahi bhi bi bj (ahi - (bi + s)) s h1 h2

/-- Validity of `find_longest_match`: the returned block lies inside the
    requested segment. -/
theorem findLongestMatch_valid (a b : List Char) (alo ahi blo bhi : Nat)
    (ha : alo ≤ ahi) (hb : blo ≤ bhi) :
    alo ≤ (findLongestMatch a b alo ahi blo bhi).1 ∧
      (findLongestMatch a b alo ahi blo bhi).1 + (findLongestMatch a b alo ahi blo bhi).2.2 ≤ ahi ∧
      blo ≤ (findLongestMatch a b alo ahi blo bhi).2.1 ∧
      (findLongestMatch a b alo ahi blo bhi).2.1 + (findLongestMatch a b alo ahi blo bhi).2.2 ≤ bhi := by
  unfold findLongestMatch
  dsimp only
  set st := (List.range' alo (ahi - alo)).foldl (flmRow a b blo bhi) ⟨alo, blo, 0, fun _ => 0⟩
    with hst
  have hV : VInv alo blo bhi (ahi - alo) st := flmFold_VInv a b alo blo bhi hb (ahi - alo)
  obtain ⟨h1, h2, h3, h4, -, -⟩ := hV
  have hback := extendBack_bounds a b alo blo st.besti st.bestj st.bestsize h1 h3
  set back := extendBack a b alo blo st.besti st.bestj st.bestsize with hbackdef
  have hfwd := extendFwd_bounds a b ahi bhi back.1 back.2.1 back.2.2
    (by omega) (by omega)
  exact ⟨hback.1, hfwd.2.1, hback.2.2.1, hfwd.2.2⟩

/-!  ## The total matched size is at most each sequence's length  -/

theorem matchingBlocksAux_sum (a b : List Char) :
    ∀ (fuel alo ahi blo bhi : Nat), alo ≤ ahi → blo ≤ bhi →
      ((matchingBlocksAux a b fuel alo ahi blo bhi).map (fun t => t.2.2)).sum + alo ≤ ahi ∧
        ((matchingBlocksAux a b fuel alo ahi blo bhi).map (fun t => t.2.2)).sum + blo ≤ bhi := by
  intro fuel
  induction fuel with
  | zero => intro alo ahi blo bhi ha hb; simpa [matchingBlocksAux] using ⟨ha, hb⟩
  | succ fuel ih =>
    intro alo ahi blo bhi ha hb
    rw [matchingBlocksAux]
    set m := findLongestMatch a b alo ahi blo bhi with hm
    have hV := findLongestMatch_valid a b alo ahi blo bhi ha hb
    rw [← hm] at hV
    split
    · simpa using ⟨ha, hb⟩
    · rw [List.map_append, List.sum_append, List.map_cons, List.sum_cons]
      have hL : ((if alo < m.1 ∧ blo < m.2.1 then matchingBlocksAux a b fuel alo m.1 blo m.2.1
            else []).map (fun t => t.2.2)).sum + alo ≤ m.1 ∧
          ((if alo < m.1 ∧ blo < m.2.1 then matchingBlocksAux a b fuel alo m.1 blo m.2.1
            else []).map (fun t => t.2.2)).sum + blo ≤ m.2.1 := by
        split
        · rename_i hg; exact ih alo m.1 blo m.2.1 (by omega) (by omega)
        · simp only [List.map_nil, List.sum_nil]; omega
      have hR : ((if m.1 + m.2.2 < ahi ∧ m.2.1 + m.2.2 < bhi then
            matchingBlocksAux a b fuel (m.1 + m.2.2) ahi (m.2.1 + m.2.2) bhi
            else []).map (fun t => t.2.2)).sum + (m.1 + m.2.2) ≤ ahi ∧
          ((if m.1 + m.2.2 < ahi ∧ m.2.1 + m.2.2 < bhi then
            matchingBlocksAux a b fuel (m.1 + m.2.2) ahi (m.2.1 + m.2.2) bhi
            else []).map (fun t => t.2.2)).sum + (m.2.1 + m.2.2) ≤ bhi := by
        split
        · rename_i hg; exact ih (m.1 + m.2.2) ahi (m.2.1 + m.2.2) bhi (by omega) (by omega)
        · simp only [List.map_nil, List.sum_nil]; omega
      omega

theorem matchesTotal_le_left (a b : List Char) : matchesTotal a b ≤ a.length := by
  have := (matchingBlocksAux_sum a b (a.length + b.length + 1) 0 a.length 0 b.length
    (Nat.zero_le _) (Nat.zero_le _)).1
  unfold matchesTotal getMatchingBlocks
  omega

theorem matchesTotal_le_right (a b : List Char) : matchesTotal a b ≤ b.length := by
  have := (matchingBlocksAux_sum a b (a.length + b.length + 1) 0 a.length 0 b.length
    (Nat.zero_le _) (Nat.zero_le _)).2
  unfold matchesTotal getMatchingBlocks
  omega

theorem smRatio_nonneg (sa sb : String) : 0 ≤ smRatio sa sb := by
  unfold smRatio
  split
  · norm_num
  · positivity

theorem smRatio_le_one (sa sb : String) : smRatio sa sb ≤ 1 := by
  unfold smRatio
  split
  · norm_num
  · rename_i h
    rw [div_le_one (by positivity)]
    have h1 := matchesTotal_le_left sa.data sb.data
    have h2 := matchesTotal_le_right sa.data sb.data
    have : (2 * matchesTotal sa.data sb.data : ℚ) ≤
        ((sa.data.length + sb.data.length : Nat) : ℚ) := by
      push_cast
      have : 2 * matchesTotal sa.data sb.data ≤ sa.data.length + sb.data.length := by omega
      exact_mod_cast this
    exact this

/-!  ## `ratio` of a sequence with itself is 1

The loop of `find_longest_match` on two copies of the same sequence keeps a
best block that sits on the diagonal: the length of any candidate chain is
bounded by the run of non-popular positions ending at the current row, and
the diagonal chain attains that run exactly, so an off-diagonal chain can
never strictly beat the diagonal one.  The two extension loops then grow
the diagonal block to the whole sequence.  -/

/-- The run of non-popular positions of `a` ending at position `i`. -/
def npRun (a : List Char) : Nat → Nat
  | 0 => if isPopular a (a.getD 0 default) then 0 else 1
  | i+1 => if isPopular a (a.getD (i+1) default) then 0 else npRun a i + 1

/-- The largest `npRun` among positions `< q`. -/
def npMax (a : List Char) : Nat → Nat
  | 0 => 0
  | q+1 => max (npMax a q) (npRun a q)

/-- `npRun` at the row before `q` (0 when there is none). -/
def prevRun (a : List Char) : Nat → Nat
  | 0 => 0
  | q+1 => npRun a q

theorem npRun_le (a : List Char) : ∀ i, npRun a i ≤ i + 1 := by
  intro i
  induction i with
  | zero => rw [npRun]; split <;> omega
  | succ i ih => rw [npRun]; split <;> omega

theorem npRun_pop (a : List Char) (i : Nat) (h : isPopular a (a.getD i default) = true) :
    npRun a i = 0 := by
  cases i with
  | zero => rw [npRun, h]; simp
  | succ p => rw [npRun, h]; simp

theorem npRun_nonpop (a : List Char) (i : Nat) (h : isPopular a (a.getD i default) = false) :
    npRun a i = prevRun a i + 1 := by
  cases i with
  | zero => rw [npRun, h, prevRun]; simp
  | succ p => rw [npRun, h, prevRun]; simp

theorem npRun_le_npMax (a : List Char) (j : Nat) : ∀ q, j < q → npRun a j ≤ npMax a q := by
  intro q
  induction q with
  | zero => omega
  | succ q ih =>
    intro hj
    rw [npMax]
    rcases Nat.lt_succ_iff_lt_or_eq.mp hj with h | h
    · exact le_trans (ih h) (Nat.le_max_left _ _)
    · subst h; exact Nat.le_max_right _ _

theorem b2j_mem (b : List Char) (c : Char) (j : Nat) :
    j ∈ b2j b c ↔ isPopular b c = false ∧ j < b.length ∧ b.getD j default = c := by
  unfold b2j
  split
  · rename_i h; simp [h]
  · rename_i h
    have h' : isPopular b c = false := by revert h; cases isPopular b c <;> simp
    simp only [List.mem_filter, List.mem_range, beq_iff_eq, h', true_and]

theorem b2j_sorted (b : List Char) (c : Char) : List.Pairwise (· < ·) (b2j b c) := by
  unfold b2j
  split
  · exact List.Pairwise.nil
  · exact List.Pairwise.sublist (List.filter_sublist _) (List.pairwise_lt_range _)

/-- Invariant of the outer loop of `find_longest_match(0, n, 0, n)` on two
    copies of `a`, after `q` rows: the best block is diagonal of size
    `npMax`, and `j2len` is bounded by the non-popular runs (exactly
    attained on the diagonal). -/
def DiagInv (a : List Char) (q : Nat) (st : FlmState) : Prop :=
  st.bestsize = npMax a q ∧ st.besti = st.bestj ∧ st.besti + st.bestsize ≤ q ∧
    (∀ j, st.j2len j ≤ npRun a j) ∧ (∀ j, st.j2len j ≤ prevRun a q) ∧
    (∀ p, q = p + 1 → st.j2len p = npRun a p)

theorem flmRow_DiagInv (a : List Char) (q : Nat) (st : FlmState) (hq : q < a.length)
    (h : DiagInv a q st) : DiagInv a (q + 1) (flmRow a a 0 a.length st q) := by
  obtain ⟨h1, h2, h3, h4, h5, h6⟩ := h
  unfold DiagInv
  rw [flmRow_besti, flmRow_bestj, flmRow_bestsize, flmRow_j2len]
  unfold flmRowFold
  by_cases hpop : isPopular a (a.getD q default) = true
  · -- the row's element is popular: no candidates, `j2len` resets
    have hb2j : b2j a (a.getD q default) = [] := by unfold b2j; rw [if_pos hpop]
    rw [hb2j]
    simp only [List.filter_nil, List.foldl_nil]
    have hrun : npRun a q = 0 := npRun_pop a q hpop
    refine ⟨?_, h2, by omega, ?_, ?_, ?_⟩
    · show st.bestsize = npMax a (q + 1)
      rw [npMax, hrun, Nat.max_zero]
      exact h1
    · intro j; exact Nat.zero_le _
    · intro j; exact Nat.zero_le _
    · intro p hp
      have hpq : p = q := by omega
      subst hpq
      exact hrun.symm
  · have hpop' : isPopular a (a.getD q default) = false := by
      revert hpop; cases isPopular a (a.getD q default) <;> simp
    have hfilter : (b2j a (a.getD q default)).filter
        (fun j => decide (0 ≤ j) && decide (j < a.length)) = b2j a (a.getD q default) := by
      apply List.filter_eq_self.mpr
      intro j hj
      have hm := (b2j_mem a (a.getD q default) j).mp hj
      simp only [Bool.and_eq_true, decide_eq_true_eq]
      exact ⟨Nat.zero_le _, hm.2.1⟩
    rw [hfilter]
    have hqmem : q ∈ b2j a (a.getD q default) := (b2j_mem _ _ _).mpr ⟨hpop', hq, rfl⟩
    obtain ⟨pre, post, hsplit⟩ := List.append_of_mem hqmem
    have hsorted := b2j_sorted a (a.getD q default)
    rw [hsplit] at hsorted
    have hpre : ∀ x ∈ pre, x < q := by
      intro x hx
      exact (List.pairwise_append.mp hsorted).2.2 x hx q (List.mem_cons_self _ _)
    have hpost : ∀ y ∈ post, q < y := by
      have hp2 := (List.pairwise_append.mp hsorted).2.1
      exact (List.pairwise_cons.mp hp2).1
    -- chain values are bounded by the non-popular runs
    have hK1 : ∀ j ∈ b2j a (a.getD q default), kval st j ≤ npRun a j := by
      intro j hj
      obtain ⟨-, hjn, hjc⟩ := (b2j_mem _ _ _).mp hj
      have hnp : isPopular a (a.getD j default) = false := by rw [hjc]; exact hpop'
      unfold kval
      cases j with
      | zero =>
        rw [if_pos rfl, npRun, hnp]
        simp
      | succ p =>
        have h4p := h4 p
        rw [if_neg (by omega : ¬ (p + 1 = 0)), Nat.add_sub_cancel, npRun, hnp]
        simp only [Bool.false_eq_true, if_false]
        omega
    have hK2 : ∀ j ∈ b2j a (a.getD q default), kval st j ≤ npRun a q := by
      intro j hj
      have hqr : npRun a q = prevRun a q + 1 := npRun_nonpop a q hpop'
      unfold kval
      cases j with
      | zero => rw [if_pos rfl]; omega
      | succ p =>
        have h5p := h5 p
        rw [if_neg (by omega : ¬ (p + 1 = 0)), Nat.add_sub_cancel]
        omega
    have hK3 : kval st q = npRun a q := by
      have hqr : npRun a q = prevRun a q + 1 := npRun_nonpop a q hpop'
      unfold kval
      cases q with
      | zero =>
        rw [if_pos rfl, hqr]
        rfl
      | succ p =>
        rw [if_neg (by omega : ¬ (p + 1 = 0)), Nat.add_sub_cancel, h6 p rfl, hqr]
        rfl
    -- the loop: columns before `q` never beat the best, the diagonal column
    -- `q` attains `npRun a q`, later columns never beat it either
    have hPreSnd : (List.foldl (innerStep q st)
        (fun _ => 0, st.besti, st.bestj, st.bestsize) pre).2 =
          ((fun _ => 0, st.besti, st.bestj, st.bestsize) :
            (Nat → Nat) × Nat × Nat × Nat).2 := by
      apply innerFold_no_update
      intro j hj
      have hjb : j ∈ b2j a (a.getD q default) := by
        rw [hsplit]; exact List.mem_append_left _ hj
      have hk := hK1 j hjb
      have hm := npRun_le_npMax a j q (hpre j hj)
      dsimp only
      omega
    have hstep := innerStep_snd q st
      (List.foldl (innerStep q st) (fun _ => 0, st.besti, st.bestj, st.bestsize) pre) q
    rw [hPreSnd] at hstep
    dsimp only at hstep
    rw [hK3] at hstep
    have hPostSnd : (List.foldl (innerStep q st)
        (innerStep q st
          (List.foldl (innerStep q st) (fun _ => 0, st.besti, st.bestj, st.bestsize) pre) q)
        post).2 =
        (innerStep q st
          (List.foldl (innerStep q st) (fun _ => 0, st.besti, st.bestj, st.bestsize) pre) q).2 := by
      apply innerFold_no_update
      intro j hj
      have hjb : j ∈ b2j a (a.getD q default) := by
        rw [hsplit]; exact List.mem_append_right _ (List.mem_cons_of_mem _ hj)
      have hk := hK2 j hjb
      rw [hstep]
      split
      · dsimp only; omega
      · rename_i hc; dsimp only; omega
    have hbest : (List.foldl (innerStep q st)
        (fun _ => 0, st.besti, st.bestj, st.bestsize) (pre ++ q :: post)).2 =
        (innerStep q st
          (List.foldl (innerStep q st) (fun _ => 0, st.besti, st.bestj, st.bestsize) pre) q).2 := by
      rw [List.foldl_append, List.foldl_cons]
      exact hPostSnd
    have hj2 : ∀ x, (List.foldl (innerStep q st)
        (fun _ => 0, st.besti, st.bestj, st.bestsize) (pre ++ q :: post)).1 x =
          if x ∈ pre ++ q :: post then kval st x else 0 :=
      fun x => innerFold_j2len q st (pre ++ q :: post) _ x
    rw [hsplit]
    have hrle : npRun a q ≤ q + 1 := npRun_le a q
    refine ⟨?_, ?_, ?_, ?_, ?_, ?_⟩
    · rw [hbest, hstep]
      split
      · rename_i hc
        dsimp only
        rw [npMax, Nat.max_eq_right (by omega)]
      · rename_i hc
        dsimp only
        rw [npMax, Nat.max_eq_left (by omega)]
        exact h1
    · rw [hbest, hstep]
      split
      · rfl
      · exact h2
    · rw [hbest, hstep]
      split
      · dsimp only; omega
      · dsimp only; omega
    · intro j
      rw [hj2 j]
      split
      · rename_i hmem
        exact hK1 j (hsplit ▸ hmem)
      · exact Nat.zero_le _
    · intro j
      rw [hj2 j]
      show _ ≤ prevRun a (q + 1)
      rw [prevRun]
      split
      · rename_i hmem
        exact hK2 j (hsplit ▸ hmem)
      · exact Nat.zero_le _
    · intro p hp
      have hpq : p = q := by omega
      subst hpq
      rw [hj2 p]
      rw [if_pos (List.mem_append_right _ (List.mem_cons_self _ _))]
      exact hK3

theorem flmFold_DiagInv (a : List Char) :
    ∀ q, q ≤ a.length → DiagInv a q
      ((List.range' 0 q).foldl (flmRow a a 0 a.length) ⟨0, 0, 0, fun _ => 0⟩) := by
  intro q
  induction q with
  | zero =>
    intro _
    show DiagInv a 0 (⟨0, 0, 0, fun _ => 0⟩ : FlmState)
    exact ⟨rfl, rfl, Nat.le_refl 0, fun _ => Nat.zero_le _, fun _ => Nat.le_refl 0,
      fun p hp => absurd hp (by omega)⟩
  | succ q ih =>
    intro hqn
    rw [List.range'_concat, Nat.one_mul, Nat.zero_add, List.foldl_append, List.foldl_cons,
      List.foldl_nil]
    exact flmRow_DiagInv a q _ (by omega) (ih (by omega))

theorem extendBack_diag (a : List Char) : ∀ bi bs, extendBack a a 0 0 bi bi bs = (0, 0, bs + bi) := by
  intro bi
  induction bi with
  | zero =>
    intro bs
    rw [extendBack]
    rfl
  | succ bi ih =>
    intro bs
    rw [extendBack]
    rw [if_pos ⟨Nat.succ_pos bi, Nat.succ_pos bi,
      by rw [Nat.add_sub_cancel]; exact beq_self_eq_true _⟩]
    rw [Nat.add_sub_cancel, ih (bs + 1)]
    have h : bs + 1 + bi = bs + (bi + 1) := by omega
    rw [h]

theorem extendFwdAux_diag (a : List Char) :
    ∀ fuel s, fuel = a.length - s → s ≤ a.length →
      extendFwdAux a a a.length a.length 0 0 fuel s = a.length := by
  intro fuel
  induction fuel with
  | zero =>
    intro s hf hs
    rw [extendFwdAux]
    omega
  | succ fuel ih =>
    intro s hf hs
    rw [extendFwdAux]
    rw [if_pos ⟨by omega, by omega, beq_self_eq_true _⟩]
    exact ih (s + 1) (by omega) (by omega)

theorem extendFwd_diag (a : List Char) :
    ∀ s, s ≤ a.length → extendFwd a a a.length a.length 0 0 s = a.length := by
  intro s hs
  unfold extendFwd
  rw [Nat.zero_add]
  exact extendFwdAux_diag a (a.length - s) s rfl hs

/-- On two copies of the same sequence, `find_longest_match` over the whole
    range returns the full diagonal block. -/
theorem findLongestMatch_self (a : List Char) :
    findLongestMatch a a 0 a.length 0 a.length = (0, 0, a.length) := by
  unfold findLongestMatch
  have hD := flmFold_DiagInv a a.length (le_refl _)
  obtain ⟨h1, h2, h3, -, -, -⟩ := hD
  dsimp only
  rw [Nat.sub_zero, ← h2, extendBack_diag]
  dsimp only
  rw [extendFwd_diag a _ (by omega)]

theorem matchesTotal_self (a : List Char) : matchesTotal a a = a.length := by
  unfold matchesTotal getMatchingBlocks
  rw [matchingBlocksAux, findLongestMatch_self]
  dsimp only
  by_cases hn : a.length = 0
  · rw [if_pos hn]
    simp [hn]
  · rw [if_neg hn, if_neg (by omega : ¬ (0 < 0 ∧ 0 < 0)),
      if_neg (by omega : ¬ (0 + a.length < a.length ∧ 0 + a.length < a.length))]
    simp

/-- `SequenceMatcher(None, s, s).ratio() == 1.0`, junk and autojunk
    notwithstanding. -/
theorem smRatio_self (s : String) : smRatio s s = 1 := by
  unfold smRatio
  split
  · rfl
  · rename_i h
    rw [matchesTotal_self]
    rw [div_eq_one_iff_eq (by exact_mod_cast (by omega : ¬ (s.data.length + s.data.length : Nat) = (0:Nat))  )]
    push_cast
    ring

/-!  ## Lemmas about the local scorer's fold  -/

/-- The largest pairwise ratio of `new_text` against the fetched rows
    (`0` over an empty corpus). -/
def maxRatio (new_text : String) (l : List Submission) : ℚ :=
  l.foldr (fun rec acc => max (smRatio new_text rec.text) acc) 0

theorem maxRatio_nil (t : String) : maxRatio t [] = 0 := rfl

theorem maxRatio_cons (t : String) (rec : Submission) (l : List Submission) :
    maxRatio t (rec :: l) = max (smRatio t rec.text) (maxRatio t l) := rfl

theorem maxRatio_nonneg (t : String) (l : List Submission) : 0 ≤ maxRatio t l := by
  induction l with
  | nil => exact le_refl 0
  | cons rec l ih => rw [maxRatio_cons]; exact le_trans ih (le_max_right _ _)

theorem maxRatio_le_one (t : String) (l : List Submission) : maxRatio t l ≤ 1 := by
  induction l with
  | nil => norm_num [maxRatio_nil]
  | cons rec l ih => rw [maxRatio_cons]; exact max_le (smRatio_le_one _ _) ih

theorem le_maxRatio_of_mem (t : String) (l : List Submission) (rec : Submission)
    (h : rec ∈ l) : smRatio t rec.text ≤ maxRatio t l := by
  induction l with
  | nil => cases h
  | cons rec' l ih =>
    rw [maxRatio_cons]
    rcases List.mem_cons.mp h with h' | h'
    · subst h'; exact le_max_left _ _
    · exact le_trans (ih h') (le_max_right _ _)

theorem localStep_fst (t : String) (b : ℚ × Option Nat × Option String) (rec : Submission) :
    (localStep t b rec).1 = max b.1 (smRatio t rec.text) := by
  unfold localStep
  dsimp only
  split
  · rename_i h; exact (max_eq_right (le_of_lt h)).symm
  · rename_i h; exact (max_eq_left (not_lt.mp h)).symm

theorem localFold_fst (t : String) :
    ∀ (l : List Submission) (b : ℚ × Option Nat × Option String), 0 ≤ b.1 →
      (l.foldl (localStep t) b).1 = max b.1 (maxRatio t l) := by
  intro l
  induction l with
  | nil =>
    intro b hb
    rw [List.foldl_nil, maxRatio_nil, max_eq_left hb]
  | cons rec l ih =>
    intro b hb
    rw [List.foldl_cons, ih _ (by rw [localStep_fst]; exact le_trans hb (le_max_left _ _)),
      localStep_fst, maxRatio_cons, max_assoc]

theorem localFold_const (t : String) :
    ∀ (l : List Submission) (b : ℚ × Option Nat × Option String),
      (∀ rec ∈ l, smRatio t rec.text ≤ b.1) → l.foldl (localStep t) b = b := by
  intro l
  induction l with
  | nil => intro b _; rfl
  | cons rec l ih =>
    intro b h
    rw [List.foldl_cons]
    have hstep : localStep t b rec = b := by
      unfold localStep
      dsimp only
      rw [if_neg (not_lt.mpr (h rec (List.mem_cons_self _ _)))]
    rw [hstep]
    exact ih b (fun r hr => h r (List.mem_cons_of_mem _ hr))

/-- The fold reports the first record attaining the maximal ratio, once the
    maximum beats the accumulator. -/
theorem localFold_first_max (t : String) :
    ∀ (l : List Submission) (b : ℚ × Option Nat × Option String), 0 ≤ b.1 →
      b.1 < maxRatio t l →
      ∃ rec, l.find? (fun r => decide (smRatio t r.text = maxRatio t l)) = some rec ∧
        l.foldl (localStep t) b = (maxRatio t l, some rec.id, some (displayHandle rec)) := by
  intro l
  induction l with
  | nil =>
    intro b hb0 hb
    rw [maxRatio_nil] at hb
    exact absurd (lt_of_le_of_lt hb0 hb) (lt_irrefl 0)
  | cons rec0 l ih =>
    intro b hb0 hb
    by_cases h0 : smRatio t rec0.text = maxRatio t (rec0 :: l)
    · have hbr : b.1 < smRatio t rec0.text := h0 ▸ hb
      have hstep : localStep t b rec0 =
          (smRatio t rec0.text, some rec0.id, some (displayHandle rec0)) := by
        unfold localStep
        dsimp only
        rw [if_pos hbr]
      have hconst : ∀ r ∈ l, smRatio t r.text ≤
          ((smRatio t rec0.text, some rec0.id, some (displayHandle rec0)) :
            ℚ × Option Nat × Option String).1 := by
        intro r hr
        dsimp only
        rw [h0]
        exact le_maxRatio_of_mem t (rec0 :: l) r (List.mem_cons_of_mem _ hr)
      refine ⟨rec0, ?_, ?_⟩
      · rw [List.find?_cons_of_pos _ (by rw [decide_eq_true_eq]; exact h0)]
      · rw [List.foldl_cons, hstep, localFold_const t l _ hconst, h0]
    · have hm : maxRatio t (rec0 :: l) = maxRatio t l ∧
          smRatio t rec0.text < maxRatio t l := by
        rcases max_cases (smRatio t rec0.text) (maxRatio t l) with ⟨he, -⟩ | ⟨he, hlt⟩
        · exact absurd (by rw [maxRatio_cons, he]) h0
        · exact ⟨by rw [maxRatio_cons, he], hlt⟩
      obtain ⟨hm1, hm2⟩ := hm
      rw [hm1] at hb ⊢
      have hb0' : 0 ≤ (localStep t b rec0).1 := by
        rw [localStep_fst]
        exact le_trans hb0 (le_max_left _ _)
      have hb' : (localStep t b rec0).1 < maxRatio t l := by
        rw [localStep_fst]
        exact max_lt hb hm2
      obtain ⟨rec, hfind, hfold⟩ := ih (localStep t b rec0) hb0' hb'
      refine ⟨rec, ?_, ?_⟩
      · rw [List.find?_cons_of_neg _ (by rw [decide_eq_true_eq]; exact ne_of_lt hm2)]
        exact hfind
      · rw [List.foldl_cons]
        exact hfold

theorem calc_fst (t : String) (l : List Submission) :
    (calculate_max_similarity_locally t l).1 = maxRatio t l := by
  unfold calculate_max_similarity_locally
  rw [localFold_fst t l (0, none, none) (le_refl 0)]
  exact max_eq_right (maxRatio_nonneg t l)

theorem calc_of_maxRatio_zero (t : String) (l : List Submission)
    (h : maxRatio t l = 0) : calculate_max_similarity_locally t l = (0, none, none) := by
  unfold calculate_max_similarity_locally
  exact localFold_const t l (0, none, none) (fun rec hr => by
    dsimp only
    exact h ▸ le_maxRatio_of_mem t l rec hr)

theorem calc_of_maxRatio_pos (t : String) (l : List Submission)
    (h : 0 < maxRatio t l) :
    ∃ rec, l.find? (fun r => decide (smRatio t r.text = maxRatio t l)) = some rec ∧
      calculate_max_similarity_locally t l =
        (maxRatio t l, some rec.id, some (displayHandle rec)) :=
  localFold_first_max t l (0, none, none) (le_refl 0) h

theorem calc_none_iff (t : String) (l : List Submission) :
    (calculate_max_similarity_locally t l).2.1 = none ↔
      ∀ rec ∈ l, smRatio t rec.text = 0 := by
  constructor
  · intro h rec hrec
    by_contra hne
    have hpos : 0 < smRatio t rec.text :=
      lt_of_le_of_ne (smRatio_nonneg t rec.text) (Ne.symm hne)
    have hmax : 0 < maxRatio t l := lt_of_lt_of_le hpos (le_maxRatio_of_mem t l rec hrec)
    obtain ⟨rec', -, hfold⟩ := calc_of_maxRatio_pos t l hmax
    rw [hfold] at h
    exact Option.noConfusion h
  · intro h
    have : maxRatio t l = 0 := by
      apply le_antisymm _ (maxRatio_nonneg t l)
      induction l with
      | nil => norm_num [maxRatio_nil]
      | cons rec l ih =>
        rw [maxRatio_cons, h rec (List.mem_cons_self _ _)]
        simp only [max_le_iff, le_refl, true_and]
        exact ih (fun r hr => h r (List.mem_cons_of_mem _ hr))
    rw [calc_of_maxRatio_zero t l this]

/-!  ## Lemmas about the polling loop  -/

theorem pollAux_some_terminal (responses : Nat → PollResp) :
    ∀ fuel n r, pollAux responses n fuel = some r → ∃ m, isTerminalResp (responses (n + m)) := by
  intro fuel
  induction fuel with
  | zero => intro n r h; exact absurd h (by rw [pollAux]; exact Option.noConfusion)
  | succ fuel ih =>
    intro n r h
    rw [pollAux] at h
    by_cases h1 : (responses n).httpOk = false
    · exact ⟨0, Or.inl h1⟩
    · rw [if_neg h1] at h
      by_cases h2 : (responses n).status = some "completed"
      · exact ⟨0, Or.inr (Or.inl h2)⟩
      · rw [if_neg h2] at h
        by_cases h3 : (responses n).status = some "failed"
        · exact ⟨0, Or.inr (Or.inr h3)⟩
        · rw [if_neg h3] at h
          obtain ⟨m, hm⟩ := ih (n + 1) r h
          exact ⟨m + 1, by rw [show n + (m + 1) = n + 1 + m from by omega]; exact hm⟩

theorem pollAux_terminal_some (responses : Nat → PollResp) :
    ∀ m n, isTerminalResp (responses (n + m)) →
      ∃ fuel r, pollAux responses n fuel = some r := by
  intro m
  induction m with
  | zero =>
    intro n hterm
    rw [Nat.add_zero] at hterm
    refine ⟨1, ?_⟩
    rw [pollAux]
    by_cases h1 : (responses n).httpOk = false
    · exact ⟨Except.error CLError.pollHttpError, by rw [if_pos h1]⟩
    · rw [if_neg h1]
      by_cases h2 : (responses n).status = some "completed"
      · exact ⟨Except.ok (responses n), by rw [if_pos h2]⟩
      · rw [if_neg h2]
        have h3 : (responses n).status = some "failed" := by
          rcases hterm with h | h | h
          · exact absurd h h1
          · exact absurd h h2
          · exact h
        exact ⟨Except.error CLError.scanFailed, by rw [if_pos h3]⟩
  | succ m ih =>
    intro n hterm
    by_cases h1 : (responses n).httpOk = false
    · exact ⟨1, Except.error CLError.pollHttpError, by rw [pollAux, if_pos h1]⟩
    · by_cases h2 : (responses n).status = some "completed"
      · exact ⟨1, Except.ok (responses n), by rw [pollAux, if_neg h1, if_pos h2]⟩
      · by_cases h3 : (responses n).status = some "failed"
        · exact ⟨1, Except.error CLError.scanFailed, by
            rw [pollAux, if_neg h1, if_neg h2, if_pos h3]⟩
        · have hterm' : isTerminalResp (responses (n + 1 + m)) := by
            rw [show n + 1 + m = n + (m + 1) from by omega]
            exact hterm
          obtain ⟨fuel, r, hr⟩ := ih (n + 1) hterm'
          exact ⟨fuel + 1, r, by rw [pollAux, if_neg h1, if_neg h2, if_neg h3]; exact hr⟩

/-!  ## Handler shapes  -/

theorem check_text_of_ne (db : List Submission) (user_id : Nat) (username : Option String)
    (message_text : String) (remote : Except CLError ℚ) (now : Nat)
    (h : pyStrip message_text ≠ "") :
    check_text db user_id username message_text remote now =
      match remote with
      | Except.error _ =>
        (db, [localReplyFor (calculate_max_similarity_locally (pyStrip message_text) db),
          Reply.copyleaksError])
      | Except.ok internet_score =>
        (save_submission db user_id (username.getD "") (pyStrip message_text) internet_score now,
         [localReplyFor (calculate_max_similarity_locally (pyStrip message_text) db),
          verdictReply internet_score]) := by
  unfold check_text
  rw [if_neg h]

theorem handle_document_of_ok (db : List Submission) (user_id : Nat) (username : Option String)
    (file_name raw_text : String) (remote : Except CLError ℚ) (now : Nat)
    (hfn : pyEndsWith (asciiLower file_name) ".docx" = true)
    (hraw : pyStrip raw_text ≠ "") :
    handle_document db user_id username file_name (Except.ok raw_text) remote now =
      match remote with
      | Except.error _ =>
        (db, [localReplyFor (calculate_max_similarity_locally raw_text db),
          Reply.copyleaksError])
      | Except.ok internet_score =>
        (save_submission db user_id (username.getD "") raw_text internet_score now,
         [localReplyFor (calculate_max_similarity_locally raw_text db),
          verdictReply internet_score]) := by
  unfold handle_document
  rw [if_neg (not_not_intro hfn)]
  dsimp only
  rw [if_neg hraw]

theorem pyStrip_empty : pyStrip "" = "" := rfl

/-- The first reply is a likely-similar warning whenever the scorer returns
    ratio exactly `LOCAL_SIMILARITY_THRESHOLD` and the corpus's ids are the
    store's (nonzero). -/
theorem localReplyFor_warn (t : String) (db : List Submission)
    (hids : ∀ rec ∈ db, rec.id ≠ 0)
    (h : (calculate_max_similarity_locally t db).1 = 7/10) :
    ∃ u, (calculate_max_similarity_locally t db).2.2 = some u ∧
      localReplyFor (calculate_max_similarity_locally t db) = Reply.localWarn (7/10) u := by
  have hm : maxRatio t db = 7/10 := by rw [← calc_fst]; exact h
  have hpos : (0 : ℚ) < maxRatio t db := by rw [hm]; norm_num
  obtain ⟨rec, hfind, hfold⟩ := calc_of_maxRatio_pos t db hpos
  have hmem : rec ∈ db := List.mem_of_find?_eq_some hfind
  rw [hfold, hm]
  refine ⟨displayHandle rec, rfl, ?_⟩
  unfold localReplyFor optTruthy
  dsimp only
  rw [if_pos]
  · rfl
  · simp only [Bool.and_eq_true, decide_eq_true_eq]
    refine ⟨hids rec hmem, ?_⟩
    unfold LOCAL_SIMILARITY_THRESHOLD
    norm_num

/-!  ## Concrete instances used by counterexamples and witnesses  -/

/-- A one-row corpus whose text shares no character with the input "a". -/
def corpusC1 : List Submission := [⟨1, 7, "", "b", 0, 0⟩]

/-- A two-row corpus both of whose texts have ratio 0 with the input "ef". -/
def corpusC10 : List Submission := [⟨1, 7, "u", "ab", 0, 0⟩, ⟨2, 8, "v", "cd", 0, 0⟩]

/-- Two rows tying at the positive maximal ratio 1 for the input "ab". -/
def corpusC10W : List Submission := [⟨1, 7, "", "ab", 0, 0⟩, ⟨2, 8, "v", "ab", 0, 0⟩]

/-- The earliest row of `corpusC10W` (empty username, so the numeric id is
    the display handle). -/
def recC10W : Submission := ⟨1, 7, "", "ab", 0, 0⟩

/-- A one-row corpus holding exactly the text "ab". -/
def corpusC6W : List Submission := [⟨1, 5, "u", "ab", 0, 0⟩]

/-- A corpus against which "abcdefghij" scores exactly 0.7. -/
def corpusC4W : List Submission := [⟨1, 42, "alice", "abcdefgxxx", 0, 0⟩]

/-- A vendor report whose summary has no percentage field. -/
def reportC3 : CopyleaksReport := ⟨none⟩

/-- A fully successful vendor run whose final report lacks a percentage. -/
def envC3 : RemoteEnv :=
  ⟨Except.ok "token", Except.ok (some "scan1"),
   fun _ => ⟨true, some "completed"⟩, Except.ok reportC3⟩

/-!  ## The claims  -/

attribute [local semireducible] Rat.mul Rat.inv Rat.add Rat.sub in
/-- C1, as stated, is false: the loop updates `best_id` only on a strictly
    larger ratio than the initial `0.0`, so a non-empty corpus whose every
    record has ratio 0 with the input also yields no record.  Concretely,
    the corpus `["b"]` is non-empty, yet the input "a" gets `best_id = None`. -/
theorem claim_C1_counterexample :
    corpusC1 ≠ [] ∧ (calculate_max_similarity_locally "a" corpusC1).2.1 = none := by
  constructor
  · intro h
    exact List.noConfusion h
  · decide

/-- C1 (amended): the local scorer returns no record identifier exactly when
    every stored record has similarity ratio 0 with the input — in
    particular over the empty corpus, but also over a non-empty corpus all
    of whose records are completely dissimilar from the input. -/
theorem claim_C1 (t : String) (corpus : List Submission) :
    (calculate_max_similarity_locally t corpus).2.1 = none ↔
      ∀ rec ∈ corpus, smRatio t rec.text = 0 :=
  calc_none_iff t corpus

/-- C2: when the Copyleaks call raises, both handlers reply and return
    before `save_submission`: the stored corpus is unchanged. -/
theorem claim_C2 (db : List Submission) (user_id : Nat) (username : Option String)
    (message_text file_name : String) (extracted : Except String String)
    (e e' : CLError) (now now' : Nat) :
    (check_text db user_id username message_text (Except.error e) now).1 = db ∧
    (handle_document db user_id username file_name extracted (Except.error e') now').1 = db := by
  constructor
  · by_cases h : pyStrip message_text = ""
    · unfold check_text
      rw [if_pos h]
    · rw [check_text_of_ne db user_id username message_text (Except.error e) now h]
  · by_cases hfn : pyEndsWith (asciiLower file_name) ".docx" = true
    · cases extracted with
      | error err =>
        unfold handle_document
        rw [if_neg (not_not_intro hfn)]
      | ok raw =>
        by_cases h : pyStrip raw = ""
        · unfold handle_document
          rw [if_neg (not_not_intro hfn)]
          dsimp only
          rw [if_pos h]
        · rw [handle_document_of_ok db user_id username file_name raw (Except.error e') now' hfn h]
    · unfold handle_document
      rw [if_pos hfn]

/-- C3, as stated, is false: `summary.get("percentage", 0.0)` substitutes
    the default `0.0` when the report has no percentage, so the remote path
    succeeds with score 0 instead of failing.  Concretely, a successful run
    whose report lacks a percentage returns `Ok 0`. -/
theorem claim_C3_counterexample :
    check_internet_plagiarism envC3 1 = some (Except.ok 0) := rfl

/-- C3 (amended): a vendor report whose summary contains no percentage field
    is NOT treated as an error: whenever login, submission and polling
    succeed, the remote path returns the default overall score 0.0 as a
    successful (hence "original") result. -/
theorem claim_C3 (env : RemoteEnv) (fuel : Nat) (tok sid : String) (pr : PollResp)
    (hlogin : env.login = Except.ok tok)
    (hsubmit : env.submit = Except.ok (some sid)) (hsid : sid ≠ "")
    (hpoll : poll_copyleaks_result env.statusResponses fuel = some (Except.ok pr))
    (hreport : env.report = Except.ok ⟨none⟩) :
    check_internet_plagiarism env fuel = some (Except.ok 0) := by
  unfold check_internet_plagiarism
  rw [hlogin, hsubmit]
  dsimp only
  rw [if_neg (by simpa using hsid), hpoll, hreport]
  rfl

/-- C3 witness: the amended theorem applied to the concrete successful
    environment with a percentage-less report. -/
theorem claim_C3_witness :
    ("scan1" : String) ≠ "" ∧ check_internet_plagiarism envC3 1 = some (Except.ok 0) :=
  ⟨by decide,
   claim_C3 envC3 1 "token" "scan1" ⟨true, some "completed"⟩ rfl rfl (by decide) rfl rfl⟩

/-- C4: both similarity thresholds are inclusive.  A remote score of exactly
    20.0 yields the non-original verdict in both handlers; a local ratio of
    exactly 0.7 (with the store's nonzero record ids) yields the
    likely-similar warning in both handlers, whatever the remote outcome. -/
theorem claim_C4 (db : List Submission) (user_id : Nat) (username : Option String)
    (message_text file_name raw_text : String) (remote : Except CLError ℚ) (now : Nat)
    (hids : ∀ rec ∈ db, rec.id ≠ 0)
    (hmsg : pyStrip message_text ≠ "")
    (hfn : pyEndsWith (asciiLower file_name) ".docx" = true)
    (hraw : pyStrip raw_text ≠ "") :
    (Reply.verdictNotOriginal 20 ∈
      (check_text db user_id username message_text (Except.ok 20) now).2) ∧
    (Reply.verdictNotOriginal 20 ∈
      (handle_document db user_id username file_name (Except.ok raw_text)
        (Except.ok 20) now).2) ∧
    ((calculate_max_similarity_locally (pyStrip message_text) db).1 = 7/10 →
      ∃ u, Reply.localWarn (7/10) u ∈
        (check_text db user_id username message_text remote now).2) ∧
    ((calculate_max_similarity_locally raw_text db).1 = 7/10 →
      ∃ u, Reply.localWarn (7/10) u ∈
        (handle_document db user_id username file_name (Except.ok raw_text) remote now).2) := by
  have hverdict : verdictReply 20 = Reply.verdictNotOriginal 20 := by
    unfold verdictReply INTERNET_SIMILARITY_THRESHOLD
    rw [if_pos (le_refl _)]
  refine ⟨?_, ?_, ?_, ?_⟩
  · rw [check_text_of_ne db user_id username message_text (Except.ok 20) now hmsg]
    dsimp only
    rw [hverdict]
    exact List.mem_cons_of_mem _ (List.mem_singleton.mpr rfl)
  · rw [handle_document_of_ok db user_id username file_name raw_text (Except.ok 20) now hfn hraw]
    dsimp only
    rw [hverdict]
    exact List.mem_cons_of_mem _ (List.mem_singleton.mpr rfl)
  · intro hloc
    obtain ⟨u, -, hwarn⟩ := localReplyFor_warn (pyStrip message_text) db hids hloc
    refine ⟨u, ?_⟩
    rw [check_text_of_ne db user_id username message_text remote now hmsg]
    cases remote with
    | error e => dsimp only; rw [hwarn]; exact List.mem_cons_self _ _
    | ok s => dsimp only; rw [hwarn]; exact List.mem_cons_self _ _
  · intro hloc
    obtain ⟨u, -, hwarn⟩ := localReplyFor_warn raw_text db hids hloc
    refine ⟨u, ?_⟩
    rw [handle_document_of_ok db user_id username file_name raw_text remote now hfn hraw]
    cases remote with
    | error e => dsimp only; rw [hwarn]; exact List.mem_cons_self _ _
    | ok s => dsimp only; rw [hwarn]; exact List.mem_cons_self _ _

attribute [local semireducible] Rat.mul Rat.inv Rat.add Rat.sub in
/-- C4 witness: the input "abcdefghij" scores exactly 0.7 against the stored
    "abcdefgxxx", the file name passes the extension check, and the
    conclusions hold at the remote score exactly 20. -/
theorem claim_C4_witness :
    (Reply.verdictNotOriginal 20 ∈
      (check_text corpusC4W 9 none "abcdefghij" (Except.ok 20) 0).2) ∧
    (∃ u, Reply.localWarn (7/10) u ∈
      (check_text corpusC4W 9 none "abcdefghij" (Except.ok 20) 0).2) := by
  have h := claim_C4 corpusC4W 9 none "abcdefghij" "essay.docx" "abcdefghij"
    (Except.ok 20) 0 (by decide) (by decide) (by decide) (by decide)
  exact ⟨h.1, h.2.2.1 (by decide)⟩

/-- C5: empty or whitespace-only input is rejected with no state change, in
    both handlers; and on every handling path the corpus either is unchanged
    or grows by exactly one record with non-empty text. -/
theorem claim_C5 (db : List Submission) (user_id : Nat) (username : Option String)
    (message_text file_name raw_text : String) (extracted : Except String String)
    (remote remote' : Except CLError ℚ) (now now' : Nat) :
    (pyStrip message_text = "" →
      check_text db user_id username message_text remote now = (db, [Reply.rejectEmptyText])) ∧
    (pyEndsWith (asciiLower file_name) ".docx" = true → pyStrip raw_text = "" →
      handle_document db user_id username file_name (Except.ok raw_text) remote' now' =
        (db, [Reply.emptyDocxFile])) ∧
    ((check_text db user_id username message_text remote now).1 = db ∨
      ∃ rec, (check_text db user_id username message_text remote now).1 = db ++ [rec] ∧
        rec.text ≠ "") ∧
    ((handle_document db user_id username file_name extracted remote' now').1 = db ∨
      ∃ rec, (handle_document db user_id username file_name extracted remote' now').1 =
        db ++ [rec] ∧ rec.text ≠ "") := by
  refine ⟨?_, ?_, ?_, ?_⟩
  · intro h
    unfold check_text
    rw [if_pos h]
  · intro hfn h
    unfold handle_document
    rw [if_neg (not_not_intro hfn)]
    dsimp only
    rw [if_pos h]
  · by_cases h : pyStrip message_text = ""
    · left
      unfold check_text
      rw [if_pos h]
    · rw [check_text_of_ne db user_id username message_text remote now h]
      cases remote with
      | error e => exact Or.inl rfl
      | ok s =>
        right
        exact ⟨_, rfl, h⟩
  · by_cases hfn : pyEndsWith (asciiLower file_name) ".docx" = true
    · cases extracted with
      | error err =>
        left
        unfold handle_document
        rw [if_neg (not_not_intro hfn)]
      | ok raw =>
        by_cases h : pyStrip raw = ""
        · left
          unfold handle_document
          rw [if_neg (not_not_intro hfn)]
          dsimp only
          rw [if_pos h]
        · rw [handle_document_of_ok db user_id username file_name raw remote' now' hfn h]
          cases remote' with
          | error e => exact Or.inl rfl
          | ok s =>
            right
            refine ⟨_, rfl, ?_⟩
            intro hraw
            exact h (hraw ▸ pyStrip_empty)
    · left
      unfold handle_document
      rw [if_pos hfn]

/-- C5 witness: a whitespace-only message and a whitespace-only extracted
    document are both rejected over the empty corpus, which is unchanged. -/
theorem claim_C5_witness :
    check_text [] 1 none " " (Except.ok 0) 0 = ([], [Reply.rejectEmptyText]) ∧
    handle_document [] 1 none "a.docx" (Except.ok "\n") (Except.ok 0) 0 =
      ([], [Reply.emptyDocxFile]) := by
  have h := claim_C5 [] 1 none " " "a.docx" "\n" (Except.ok "\n") (Except.ok 0) (Except.ok 0) 0 0
  exact ⟨h.1 (by decide), h.2.1 (by decide) (by decide)⟩

/-- C6: for every non-empty input and every corpus the returned ratio lies
    in [0, 1]; a corpus containing the input verbatim yields ratio exactly
    1. -/
theorem claim_C6 (t : String) (corpus : List Submission) (_htext : t ≠ "") :
    (0 ≤ (calculate_max_similarity_locally t corpus).1 ∧
      (calculate_max_similarity_locally t corpus).1 ≤ 1) ∧
    ∀ rec ∈ corpus, rec.text = t → (calculate_max_similarity_locally t corpus).1 = 1 := by
  rw [calc_fst]
  refine ⟨⟨maxRatio_nonneg t corpus, maxRatio_le_one t corpus⟩, ?_⟩
  intro rec hmem hrec
  have h1 : smRatio t rec.text = 1 := by rw [hrec]; exact smRatio_self t
  exact le_antisymm (maxRatio_le_one t corpus)
    (h1 ▸ le_maxRatio_of_mem t corpus rec hmem)

/-- C6 witness: re-submitting the stored "ab" verbatim scores exactly 1. -/
theorem claim_C6_witness :
    ("ab" : String) ≠ "" ∧ (calculate_max_similarity_locally "ab" corpusC6W).1 = 1 :=
  ⟨by decide,
   (claim_C6 "ab" corpusC6W (by decide)).2 ⟨1, 5, "u", "ab", 0, 0⟩
     (List.mem_singleton.mpr rfl) rfl⟩

/-- C7: over the empty corpus the local scorer returns ratio 0.0, no record
    identifier and no display handle, whatever the input. -/
theorem claim_C7 (t : String) : calculate_max_similarity_locally t [] = (0, none, none) := rfl

/-- C8: extraction joins exactly the non-empty literal text nodes of the
    main document part, in document order; in particular nodes "Hello" and
    "World" give "Hello\nWorld". -/
theorem claim_C8 :
    extract_text_from_docx [some "Hello", some "World"] = "Hello\nWorld" ∧
    ∀ (ts : List String), (∀ t ∈ ts, t ≠ "") →
      extract_text_from_docx (ts.map some) = String.intercalate "\n" ts := by
  constructor
  · rfl
  · intro ts hts
    unfold extract_text_from_docx
    congr 1
    rw [List.filterMap_map, show (id ∘ some : String → Option String) = some from rfl,
      List.filterMap_some]
    exact List.filter_eq_self.mpr (fun t ht => decide_eq_true (hts t ht))

/-- C8 witness: the general clause at concrete non-empty nodes. -/
theorem claim_C8_witness :
    extract_text_from_docx (["ab", "cd"].map some) = String.intercalate "\n" ["ab", "cd"] :=
  claim_C8.2 ["ab", "cd"] (by decide)

/-- C9: the polling loop returns (with data, or raising on a failed status
    or a failed request) exactly when some status response is terminal; a
    vendor forever in progress keeps it looping for every iteration bound. -/
theorem claim_C9 (responses : Nat → PollResp) :
    ((∃ fuel r, poll_copyleaks_result responses fuel = some r) ↔
      ∃ n, isTerminalResp (responses n)) ∧
    ((∀ n, ¬ isTerminalResp (responses n)) →
      ∀ fuel, poll_copyleaks_result responses fuel = none) := by
  constructor
  · constructor
    · rintro ⟨fuel, r, hr⟩
      obtain ⟨m, hm⟩ := pollAux_some_terminal responses fuel 0 r hr
      exact ⟨m, by simpa using hm⟩
    · rintro ⟨n, hn⟩
      exact pollAux_terminal_some responses n 0 (by simpa using hn)
  · intro hall fuel
    by_contra hne
    obtain ⟨r, hr⟩ := Option.ne_none_iff_exists'.mp hne
    obtain ⟨m, hm⟩ := pollAux_some_terminal responses fuel 0 r hr
    exact hall _ (by simpa using hm)

/-- C9 witness: a vendor stuck on "queued" never lets the loop return. -/
theorem claim_C9_witness :
    poll_copyleaks_result (fun _ => ⟨true, some "queued"⟩) 5 = none :=
  (claim_C9 (fun _ => ⟨true, some "queued"⟩)).2 (fun _ => by decide) 5

attribute [local semireducible] Rat.mul Rat.inv Rat.add Rat.sub in
/-- C10, as stated, is false in the zero-maximum case: with the corpus
    `["ab", "cd"]` and input "ef" every record ties at the maximal ratio 0,
    but no record at all is reported (rather than the earliest). -/
theorem claim_C10_counterexample :
    smRatio "ef" "ab" = smRatio "ef" "cd" ∧
      calculate_max_similarity_locally "ef" corpusC10 = (0, none, none) := by
  constructor
  · decide
  · decide

/-- C10 (amended): the returned ratio is the maximum pairwise ratio (0 for
    an empty corpus); when that maximum is positive the earliest record
    attaining it (in fetch order) is reported, with the stored username as
    handle, or the decimal user id when the username is empty; when the
    maximum is 0 no record is reported. -/
theorem claim_C10 (t : String) (corpus : List Submission) :
    (calculate_max_similarity_locally t corpus).1 = maxRatio t corpus ∧
    (maxRatio t corpus = 0 → calculate_max_similarity_locally t corpus = (0, none, none)) ∧
    (0 < maxRatio t corpus → ∀ rec,
      corpus.find? (fun r => decide (smRatio t r.text = maxRatio t corpus)) = some rec →
      calculate_max_similarity_locally t corpus =
        (maxRatio t corpus, some rec.id, some (displayHandle rec))) := by
  refine ⟨calc_fst t corpus, calc_of_maxRatio_zero t corpus, ?_⟩
  intro hpos rec hfind
  obtain ⟨rec', hfind', hfold⟩ := calc_of_maxRatio_pos t corpus hpos
  rw [hfind] at hfind'
  have := Option.some.inj hfind'
  subst this
  exact hfold

attribute [local semireducible] Rat.mul Rat.inv Rat.add Rat.sub in
/-- C10 witness: two records tie at the positive maximum 1; the earliest is
    reported, and its empty username falls back to the id "7". -/
theorem claim_C10_witness :
    (0 : ℚ) < maxRatio "ab" corpusC10W ∧
      calculate_max_similarity_locally "ab" corpusC10W =
        (maxRatio "ab" corpusC10W, some recC10W.id, some (displayHandle recC10W)) :=
  ⟨by decide, (claim_C10 "ab" corpusC10W).2.2 (by decide) recC10W (by decide)⟩

end Bot
